import Mathlib

/-!
Verification of the nlcd pipeline (`pipelines/pipeline.py` and
`fenrir/extraction/entity.py`).

The Python code is shallowly embedded: byte strings become `List Nat`
(one entry per byte), unicode strings become `List Nat` of code points,
Python `dict`s become association lists processed in iteration order,
floating-point fuzzy-match ratios become rationals, and the external
collaborators (search API, fetcher, text utilities, article extractor,
normalizers, blacklist) become explicit function parameters.  Exceptions
are modelled with `Except Unit`.
-/

set_option autoImplicit false

/-! ### `NerExtractor.truecase` (`fenrir/extraction/entity.py`, lines 9-16)

A Python token (`str`) is modelled as a `List Char`. -/

/-- Python `str.isupper` for byte strings: true iff the token has at least one
cased character and no lowercase character.  Used at `entity.py` line 14. -/
def pyIsUpper (t : List Char) : Bool :=
  t.any (fun c => c.isUpper || c.isLower) && t.all (fun c => !c.isLower)

/-- Helper for `pyTitle`: the Boolean argument records whether the previous
character was cased, exactly as in CPython `str.title`. -/
def pyTitleGo : Bool → List Char → List Char
  | _, [] => []
  | prevCased, c :: rest =>
    (if c.isUpper || c.isLower then (if prevCased then c.toLower else c.toUpper) else c)
      :: pyTitleGo (c.isUpper || c.isLower) rest

/-- Python `str.title`: each cased character that follows a cased character is
lowercased, each cased character that follows an uncased position is
uppercased.  Used at `entity.py` line 15. -/
def pyTitle (t : List Char) : List Char := pyTitleGo false t

/-- The per-token branch of `NerExtractor.truecase` (`entity.py` lines 12-15):
tokens of length at most 3 or starting with `@` are left alone; of the rest,
those that satisfy `isupper` are replaced by their title-cased form. -/
def truecaseTok (t : List Char) : List Char :=
  if t.length ≤ 3 then t
  else if t.headI = '@' then t
  else if pyIsUpper t then pyTitle t
  else t

/-- `NerExtractor.truecase` (`entity.py` lines 9-16).  The Python code copies
the list (`tokens[:]`) and rewrites it in place position by position, which
in a pure setting is mapping `truecaseTok` over the list. -/
def truecase (tokens : List (List Char)) : List (List Char) :=
  tokens.map truecaseTok

/-! ### UTF-8 model for `to_utf_8_dict` (`pipelines/pipeline.py`, lines 48-66)

Byte strings and unicode strings are `List Nat`.  The encoder and decoder
below model the Python 2 `utf-8` codec: the decoder rejects overlong
encodings, stray continuation bytes and code points above `0x10FFFF`
(Python 2 accepts surrogate code points, so no surrogate check appears). -/

/-- UTF-8 encoding of one code point (1 to 4 bytes). -/
def utf8EncodeChar (c : Nat) : List Nat :=
  if c < 0x80 then [c]
  else if c < 0x800 then [0xC0 + c / 0x40, 0x80 + c % 0x40]
  else if c < 0x10000 then [0xE0 + c / 0x1000, 0x80 + c / 0x40 % 0x40, 0x80 + c % 0x40]
  else [0xF0 + c / 0x40000, 0x80 + c / 0x1000 % 0x40, 0x80 + c / 0x40 % 0x40, 0x80 + c % 0x40]

/-- UTF-8 encoding of a string of code points, the model of
`unicode.encode("utf-8")`. -/
def utf8Encode (cs : List Nat) : List Nat := (cs.map utf8EncodeChar).flatten

/-- UTF-8 decoding of a byte string, the model of `str.decode("utf-8")`:
`none` models a raised `UnicodeDecodeError`. -/
def utf8Decode : List Nat → Option (List Nat)
  | [] => some []
  | b0 :: rest =>
    if b0 < 0x80 then
      (utf8Decode rest).map (fun cs => b0 :: cs)
    else
      match rest with
      | [] => none
      | b1 :: rest2 =>
        if 0xC2 ≤ b0 ∧ b0 ≤ 0xDF then
          if 0x80 ≤ b1 ∧ b1 < 0xC0 then
            (utf8Decode rest2).map (fun cs => ((b0 - 0xC0) * 0x40 + (b1 - 0x80)) :: cs)
          else none
        else
          match rest2 with
          | [] => none
          | b2 :: rest3 =>
            if 0xE0 ≤ b0 ∧ b0 ≤ 0xEF then
              if (0x80 ≤ b1 ∧ b1 < 0xC0) ∧ (0x80 ≤ b2 ∧ b2 < 0xC0) ∧ (b0 = 0xE0 → 0xA0 ≤ b1) then
                (utf8Decode rest3).map
                  (fun cs => ((b0 - 0xE0) * 0x1000 + (b1 - 0x80) * 0x40 + (b2 - 0x80)) :: cs)
              else none
            else
              match rest3 with
              | [] => none
              | b3 :: rest4 =>
                if 0xF0 ≤ b0 ∧ b0 ≤ 0xF4 then
                  if (0x80 ≤ b1 ∧ b1 < 0xC0) ∧ (0x80 ≤ b2 ∧ b2 < 0xC0) ∧ (0x80 ≤ b3 ∧ b3 < 0xC0) ∧
                      (b0 = 0xF0 → 0x90 ≤ b1) ∧ (b0 = 0xF4 → b1 < 0x90) then
                    (utf8Decode rest4).map (fun cs =>
                      ((b0 - 0xF0) * 0x40000 + (b1 - 0x80) * 0x1000 + (b2 - 0x80) * 0x40 + (b3 - 0x80)) :: cs)
                  else none
                else none

/-- Python 2 `str.decode("latin-1")`: every byte value is its own code point,
so on the byte-list representation the decode is the identity. -/
def latin1Decode (bytes : List Nat) : List Nat := bytes

mutual

/-- A Python value as passed to `to_utf_8_dict`: a byte string (`str`), a
unicode string, a non-text scalar, `None`, a sequence, or a mapping (whose
items are key/value pairs). -/
inductive PyVal : Type where
  | str : List Nat → PyVal
  | uni : List Nat → PyVal
  | num : Int → PyVal
  | noneV : PyVal
  | listV : PyList → PyVal
  | dictV : PyDict → PyVal

/-- A Python sequence of values. -/
inductive PyList : Type where
  | nil : PyList
  | cons : PyVal → PyList → PyList

/-- The items of a Python mapping, in iteration order. -/
inductive PyDict : Type where
  | nil : PyDict
  | cons : PyVal → PyVal → PyDict → PyDict

end

mutual

/-- `to_utf_8_dict` (`pipeline.py` lines 48-66).  The `isinstance` dispatch
becomes a match on the constructors: `unicode` values are encoded to UTF-8
bytes; `str` values are tried as UTF-8 and returned unchanged on success,
otherwise decoded as latin-1 and re-encoded as UTF-8; mappings recurse into
their key/value pairs (in the source each `iteritems()` pair is itself passed
through `to_utf_8_dict`, whose `Iterable` branch converts both components);
other iterables recurse elementwise; anything else is returned unchanged. -/
def to_utf_8_dict : PyVal → PyVal
  | .uni u => .str (utf8Encode u)
  | .str s =>
    match utf8Decode s with
    | some _ => .str s
    | none => .str (utf8Encode (latin1Decode s))
  | .dictV d => .dictV (to_utf_8_pairs d)
  | .listV l => .listV (to_utf_8_list l)
  | .num n => .num n
  | .noneV => .noneV

/-- Elementwise conversion of a sequence (the `Iterable` branch of
`to_utf_8_dict`). -/
def to_utf_8_list : PyList → PyList
  | .nil => .nil
  | .cons v rest => .cons (to_utf_8_dict v) (to_utf_8_list rest)

/-- Pairwise conversion of a mapping's items (the `Mapping` branch of
`to_utf_8_dict`). -/
def to_utf_8_pairs : PyDict → PyDict
  | .nil => .nil
  | .cons k v rest => .cons (to_utf_8_dict k) (to_utf_8_dict v) (to_utf_8_pairs rest)

end

mutual

/-- Well-formedness of a Python value: byte strings hold bytes (below 256) and
unicode strings hold code points below `0x110000`. -/
def pyWf : PyVal → Bool
  | .str s => s.all (fun b => b < 0x100)
  | .uni u => u.all (fun c => c < 0x110000)
  | .listV l => pyWfList l
  | .dictV d => pyWfDict d
  | .num _ => true
  | .noneV => true

/-- Well-formedness of a sequence of Python values. -/
def pyWfList : PyList → Bool
  | .nil => true
  | .cons v rest => pyWf v && pyWfList rest

/-- Well-formedness of a mapping's items. -/
def pyWfDict : PyDict → Bool
  | .nil => true
  | .cons k v rest => pyWf k && pyWf v && pyWfDict rest

end

/-! ### Stage 6, discovery/deduplication and fuzzy verification
(`step_6_filter_out_unrelated`, `pipeline.py` lines 258-361) -/

/-- One item returned by the search API: a link plus the rest of the search
annotation (opaque here). -/
structure GseItem : Type where
  link : String
  payload : String
  deriving DecidableEq

/-- One entry of a stage-5 checkpoint: a query segment together with the items
the search API returned for it (`segment_entry["segment"]`,
`segment_entry["foundItems"]`). -/
structure SegmentEntry : Type where
  segment : String
  foundItems : List GseItem

/-- The per-URL data accumulated by the deduplication loop: the first search
annotation seen (`related_url2gse`) and the set of simplified segments that
produced the URL (`related_url2segm`, a Python `set` modelled as a
duplicate-free list in insertion order). -/
structure DedupRec : Type where
  gse : GseItem
  segm : List String
  deriving DecidableEq

/-- `related_url2segm[item_url].add(segment_text)` (`pipeline.py` line 305):
set insertion, a no-op when the segment is already present. -/
def addSeg (seg : String) (r : DedupRec) : DedupRec :=
  { r with segm := if seg ∈ r.segm then r.segm else r.segm ++ [seg] }

/-- The combined effect of `pipeline.py` lines 299-308 on the three per-URL
dictionaries (which always share their key set): if the URL is already a key,
add the segment to its segment set; otherwise append a fresh record holding
this first-seen annotation and the singleton segment set. -/
def insertItem (seg : String) (item : GseItem) :
    List (String × DedupRec) → List (String × DedupRec)
  | [] => [(item.link, ⟨item, [seg]⟩)]
  | (u, r) :: rest =>
    if u = item.link then (u, addSeg seg r) :: rest
    else (u, r) :: insertItem seg item rest

/-- Lines 295-308 of `pipeline.py`: a blacklisted URL is skipped before any
insertion; otherwise the URL is inserted/updated. -/
def dedupInsert (black : String → Bool) (st : List (String × DedupRec))
    (seg : String) (item : GseItem) : List (String × DedupRec) :=
  if black item.link then st else insertItem seg item st

/-- The full deduplication loop of `step_6_filter_out_unrelated`
(`pipeline.py` lines 286-308): for each segment entry, for each found item,
process the item with the simplified segment text. -/
def dedupOrigin (black : String → Bool) (simplify : String → String)
    (gse : List SegmentEntry) : List (String × DedupRec) :=
  gse.foldl
    (fun st e =>
      e.foundItems.foldl (fun st2 it => dedupInsert black st2 (simplify e.segment) it) st)
    []

/-- Lookup in an association list, mirroring Python dict lookup. -/
def lookupRec : List (String × DedupRec) → String → Option DedupRec
  | [], _ => none
  | (k, r) :: rest, u => if k = u then some r else lookupRec rest u

/-- The (simplified segment, item) pairs of one origin's stage-5 checkpoint in
iteration order. -/
def gsePairs (simplify : String → String) (gse : List SegmentEntry) :
    List (String × GseItem) :=
  (gse.map (fun e => e.foundItems.map (fun it => (simplify e.segment, it)))).flatten

/-- The pairs of `gsePairs` that survive the blacklist check. -/
def nonBlackPairs (black : String → Bool) (simplify : String → String)
    (gse : List SegmentEntry) : List (String × GseItem) :=
  (gsePairs simplify gse).filter (fun p => !black p.2.link)

/-- Folding `insertItem` over a list of (segment, item) pairs; by
`dedupOrigin_eq_dedupFold`, `dedupOrigin` is this fold over the
non-blacklisted pairs. -/
def dedupFold (F : List (String × GseItem)) (st : List (String × DedupRec)) :
    List (String × DedupRec) :=
  F.foldl (fun st2 p => insertItem p.1 p.2 st2) st

/-- One entry of a candidate's `foundMatches` list (`pipeline.py` lines
339-342): the best-aligned matching substring and the fuzzy ratio. -/
structure FuzzyMatch : Type where
  mtch : String
  ratio : ℚ
  deriving DecidableEq

/-- One record of stage 6's output (`pipeline.py` lines 349-358). -/
structure Candidate : Type where
  url : String
  segments : List String
  body : String
  bestRatio : ℚ
  foundMatches : List FuzzyMatch
  highRatio : Bool
  gseData : GseItem
  html : Option String
  deriving DecidableEq

/-- The collaborators used by stage 6: the blacklist membership test, text
simplification, the page fetcher (`none` models a failed fetch), body
extraction (which may raise on malformed HTML, modelled by `Except`), and the
fuzzy matcher (the pattern compiled from a segment is a deterministic function
of the segment, so pattern compilation and search fuse into one function of
the body and the segment). -/
structure Step6Collab : Type where
  black : String → Bool
  simplify : String → String
  fetch : String → Option String
  extractBody : String → Option String → Except Unit String
  fuzzySearch : String → String → ℚ × String

/-- The per-candidate fuzzy loop (`pipeline.py` lines 332-345): starting from
`best_ratio = 0.0` and an empty match list, append each segment's match and
raise the best ratio whenever the new ratio exceeds it. -/
def fuzzyFold (fz : String → String → ℚ × String) (body : String)
    (segs : List String) : ℚ × List FuzzyMatch :=
  segs.foldl
    (fun acc seg =>
      (if (fz body seg).1 > acc.1 then (fz body seg).1 else acc.1,
       acc.2 ++ [⟨(fz body seg).2, (fz body seg).1⟩]))
    (0, [])

/-- Processing of one related URL (`pipeline.py` lines 327-358): fetch result,
body extraction (which may raise), simplification, the fuzzy loop, and the
output record with `highRatio = best_ratio > 0.5`. -/
def processRelated (c : Step6Collab) (url : String) (r : DedupRec) :
    Except Unit Candidate :=
  match c.extractBody url (c.fetch url) with
  | .error e => .error e
  | .ok body0 =>
    let body := c.simplify body0
    let br := fuzzyFold c.fuzzySearch body r.segm
    .ok { url := url, segments := r.segm, body := body, bestRatio := br.1,
          foundMatches := br.2, highRatio := decide (br.1 > (0.5 : ℚ)),
          gseData := r.gse, html := c.fetch url }

/-- Sequential processing of a list where an exception raised at any element
aborts the whole loop (the Python `for` loop has no `try` around its body). -/
def mapExcept {α β : Type} (f : α → Except Unit β) : List α → Except Unit (List β)
  | [] => .ok []
  | x :: rest =>
    match f x with
    | .error e => .error e
    | .ok y =>
      match mapExcept f rest with
      | .error e => .error e
      | .ok ys => .ok (y :: ys)

/-- One origin's pass through `step_6_filter_out_unrelated`: deduplicate, then
score every surviving URL.  An exception while processing any URL (e.g.
malformed HTML in `extract_body`, line 328) propagates and aborts the origin:
there is no `try` in the function. -/
def step6Origin (c : Step6Collab) (gse : List SegmentEntry) :
    Except Unit (List Candidate) :=
  mapExcept (fun p => processRelated c p.1 p.2) (dedupOrigin c.black c.simplify gse)

/-- The whole stage-6 loop over origins (`pipeline.py` line 272): an exception
raised while processing one origin propagates and aborts the stage, since
neither the loop body nor the driver catches it. -/
def step6Stage (c : Step6Collab) (origins : List (List SegmentEntry)) :
    Except Unit (List (List Candidate)) :=
  mapExcept (step6Origin c) origins

/-- Concrete stage-6 collaborators for the closed instance theorems: no
blacklist, identity simplification, fixed fetch/body, fuzzy ratio 7/10. -/
def c6W : Step6Collab :=
  { black := fun _ => false,
    simplify := id,
    fetch := fun _ => some "h",
    extractBody := fun _ _ => .ok "bt",
    fuzzySearch := fun _ _ => (7/10, "mt") }

/-- A concrete one-segment, one-result stage-5 checkpoint. -/
def gse6W : List SegmentEntry := [⟨"sg", [⟨"hu", "an"⟩]⟩]

/-- The candidate record stage 6 produces from `gse6W` under `c6W`. -/
def cand6W : Candidate :=
  { url := "hu", segments := ["sg"], body := "bt",
    bestRatio := 7/10,
    foundMatches := [⟨"mt", 7/10⟩],
    highRatio := true,
    gseData := ⟨"hu", "an"⟩, html := some "h" }

/-! ### Stage 7, metadata extraction
(`step_7_gen_cr_data`, `pipeline.py` lines 364-482) -/

/-- A parsed article (collaborator output); only its text is read by the
pipeline code. -/
structure Article : Type where
  text : String
  deriving DecidableEq

/-- An author as returned by the normalizer (only `.name` is read). -/
structure Person : Type where
  name : String
  deriving DecidableEq

/-- One record of the stage-6 checkpoint as read back by stage 7. -/
structure LinkEntry : Type where
  url : String
  body : String
  html : Option String
  highRatio : Bool
  gseData : GseItem
  deriving DecidableEq

/-- One record of stage 7's output (`pipeline.py` lines 468-478). -/
structure CRRecord : Type where
  id : Nat
  url : String
  text : String
  title : String
  sources : List String
  pub_date : Option Nat
  authors : List String
  body : String
  deriving DecidableEq

/-- The collaborators used by stage 7.  Normalized dates are modelled as
naturals ordered chronologically (e.g. `2020.03.11 ↦ 20200311`); `Except`
models the exceptions the `try` blocks catch. -/
structure Step7Collab : Type where
  black : String → Bool
  parseArticle : String → Option String → Except Unit Article
  extractTitles : Article → List String
  extractSources : GseItem → List String
  extractDates : GseItem → Except Unit (List String)
  normalizeDates : List String → Except Unit (List Nat)
  extractAuthors : Article → GseItem → Except Unit (List Person)
  normalizeAuthors : List Person → Article → Except Unit (List Person)

/-- The publication-date block (`pipeline.py` lines 444-454): extract raw
dates, normalize them, and take the minimum when at least one date remains;
an exception anywhere in the block defaults `pub_date` to `None`. -/
def computePubDate (c : Step7Collab) (gd : GseItem) : Option Nat :=
  match c.extractDates gd with
  | .error _ => none
  | .ok raw =>
    match c.normalizeDates raw with
    | .error _ => none
    | .ok dates => if 0 < dates.length then dates.min? else none

/-- The authors block (`pipeline.py` lines 456-463): extract and normalize,
lowercase and deduplicate the names; an exception defaults to an empty list. -/
def computeAuthors (c : Step7Collab) (article : Article) (gd : GseItem) :
    List String :=
  match c.extractAuthors article gd with
  | .error _ => []
  | .ok raw =>
    match c.normalizeAuthors raw article with
    | .error _ => []
    | .ok people => ((people.map (fun p => p.name.toLower)).dedup)

/-- The record stage 7 appends for a successfully processed candidate
(`pipeline.py` lines 468-478), with `n` the value of `annotation_id` at that
point. -/
def step7Rec (c : Step7Collab) (n : Nat) (e : LinkEntry) (article : Article)
    (t : String) : CRRecord :=
  { id := n, url := e.url, text := article.text, title := t,
    sources := ((c.extractSources e.gseData).map String.toLower).dedup,
    pub_date := computePubDate c e.gseData,
    authors := computeAuthors c article e.gseData,
    body := e.body }

/-- The candidate loop of `step_7_gen_cr_data` (`pipeline.py` lines 404-478)
with `n` the current `annotation_id`: low-ratio, blacklisted, unparseable and
title-less candidates are skipped without consuming an id; a successful
candidate receives the current id and the counter increments. -/
def step7Go (c : Step7Collab) : Nat → List LinkEntry → List CRRecord
  | _, [] => []
  | n, e :: rest =>
    if e.highRatio = false then step7Go c n rest
    else if c.black e.url then step7Go c n rest
    else
      match c.parseArticle e.url e.html with
      | .error _ => step7Go c n rest
      | .ok article =>
        match c.extractTitles article with
        | [] => step7Go c n rest
        | t :: _ => step7Rec c n e article t :: step7Go c (n + 1) rest

/-- One origin's pass through `step_7_gen_cr_data`: `annotation_id` starts at
1 (`pipeline.py` line 398). -/
def step7Origin (c : Step7Collab) (entries : List LinkEntry) : List CRRecord :=
  step7Go c 1 entries

/-- Concrete stage-6 collaborators whose body extraction raises on the URL
`"badu"` (modelling malformed HTML there) and succeeds elsewhere. -/
def c6bad : Step6Collab :=
  { black := fun _ => false,
    simplify := id,
    fetch := fun _ => some "h",
    extractBody := fun u _ => if u = "badu" then .error () else .ok "bt",
    fuzzySearch := fun _ _ => (7/10, "mt") }

/-- A stage-5 checkpoint whose only search result is the URL `"badu"`. -/
def gseBad : List SegmentEntry := [⟨"sgb", [⟨"badu", "anb"⟩]⟩]

/-- The search annotation shared by the concrete stage-7 inputs. -/
def gseW : GseItem := ⟨"hu", "an"⟩

/-- A concrete stage-6 output record (high ratio, not blacklisted) with the
given URL. -/
def entry7 (u : String) : LinkEntry :=
  { url := u, body := "bd", html := some "h", highRatio := true, gseData := gseW }

/-- Concrete stage-7 collaborators: parsing fails exactly on the URL `"u2"`,
the blacklist holds exactly `"blocked"`, and the date normalizer maps the
three sample raw dates to their chronological encodings. -/
def c7W : Step7Collab :=
  { black := fun u => u == "blocked",
    parseArticle := fun u _ => if u = "u2" then .error () else .ok ⟨"txt"⟩,
    extractTitles := fun _ => ["ti"],
    extractSources := fun _ => ["so"],
    extractDates := fun _ => .ok ["2020.05.02", "2020.03.11", "2020.04.01"],
    normalizeDates := fun raw => .ok (raw.map (fun s =>
      if s = "2020.05.02" then 20200502
      else if s = "2020.03.11" then 20200311
      else if s = "2020.04.01" then 20200401
      else 0)),
    extractAuthors := fun _ _ => .ok [⟨"au"⟩],
    normalizeAuthors := fun ps _ => .ok ps }

/-! ### Stage 8, cross-reference graph
(`step_8_find_cross_references`, `pipeline.py` lines 485-550) -/

/-- One `ReferenceEntry` read back from the stage-7 checkpoint
(`pipeline.py` lines 506-518). -/
structure RefEntry : Type where
  ref_id : Nat
  url : String
  text : String
  title : String
  sources : List String
  pub_date : Option Nat
  authors : List String
  body : String
  deriving DecidableEq

/-- The node attributes stored in the output graph (`pipeline.py` lines
536-545). -/
structure NodeData : Type where
  refId : Nat
  url : String
  text : String
  title : String
  sources : List String
  pubDate : Option Nat
  authors : List String
  body : String
  deriving DecidableEq

/-- The node record built from an entry (`pipeline.py` lines 536-545). -/
def nodeOf (e : RefEntry) : NodeData :=
  { refId := e.ref_id, url := e.url, text := e.text, title := e.title,
    sources := e.sources, pubDate := e.pub_date, authors := e.authors,
    body := e.body }

/-- Python dict assignment `graph_nodes[k] = v`: overwrite the existing key or
append a new one. -/
def insertNode : List (Nat × NodeData) → Nat → NodeData → List (Nat × NodeData)
  | [], k, v => [(k, v)]
  | (k0, v0) :: rest, k, v =>
    if k0 = k then (k0, v) :: rest else (k0, v0) :: insertNode rest k v

/-- Lookup in the node dictionary. -/
def lookupNode : List (Nat × NodeData) → Nat → Option NodeData
  | [], _ => none
  | (k0, v0) :: rest, k => if k0 = k then some v0 else lookupNode rest k

/-- The graph emitted for one origin (`pipeline.py` line 547). -/
structure Graph : Type where
  nodes : List (Nat × NodeData)
  edges : List (Nat × Nat)
  deriving DecidableEq

/-- Two edges carry the same unordered pair of endpoints. -/
def sameUnordered (p q : Nat × Nat) : Prop :=
  p = q ∨ p = (q.2, q.1)

/-- The graph construction of `step_8_find_cross_references` (`pipeline.py`
lines 529-547): the edge list materializes the unordered pairs returned by
`ReferenceIndex.find_cross_references`, and every indexed entry becomes a
node keyed by its `ref_id` (`for entry in ref_index.iterentries()`), whether
or not any edge touches it. -/
def step8Graph (entries : List RefEntry) (foundLinks : List (Nat × Nat)) : Graph :=
  { edges := foundLinks,
    nodes := entries.foldl (fun st e => insertNode st e.ref_id (nodeOf e)) [] }

/-- A concrete reference entry with the given id, used by the closed instance
theorems. -/
def refEntryW (i : Nat) : RefEntry :=
  { ref_id := i, url := "u", text := "tx", title := "ti", sources := ["so"],
    pub_date := none, authors := [], body := "bd" }

/-- Three concrete reference entries with ids 1, 2, 3. -/
def entriesW : List RefEntry := [refEntryW 1, refEntryW 2, refEntryW 3]

/-- Decidable equality of `Except` results, used to evaluate the concrete
instance theorems. -/
instance exceptDecEq {eTy aTy : Type} [DecidableEq eTy] [DecidableEq aTy] :
    DecidableEq (Except eTy aTy)
  | .error a, .error b =>
    if h : a = b then .isTrue (by rw [h]) else .isFalse (by intro hc; cases hc; exact h rfl)
  | .error _, .ok _ => .isFalse (by intro hc; cases hc)
  | .ok _, .error _ => .isFalse (by intro hc; cases hc)
  | .ok a, .ok b =>
    if h : a = b then .isTrue (by rw [h]) else .isFalse (by intro hc; cases hc; exact h rfl)

/-! ### Theorems -/

/-! #### Claim C10: `NerExtractor.truecase` -/

/-- The per-token rewrite of `truecase` written as a single conditional: a
token is title-cased exactly when it is longer than 3 characters, does not
start with `@`, and satisfies Python `isupper`. -/
theorem truecaseTok_eq (t : List Char) :
    truecaseTok t =
      if 3 < t.length ∧ t.headI ≠ '@' ∧ pyIsUpper t = true then pyTitle t else t := by
  unfold truecaseTok
  by_cases h1 : t.length ≤ 3
  · rw [if_pos h1, if_neg]
    rintro ⟨h, -, -⟩
    omega
  · rw [if_neg h1]
    by_cases h2 : t.headI = '@'
    · rw [if_pos h2, if_neg]
      rintro ⟨-, hne, -⟩
      exact hne h2
    · rw [if_neg h2]
      by_cases h3 : pyIsUpper t = true
      · rw [if_pos h3, if_pos ⟨by omega, h2, h3⟩]
      · rw [if_neg h3, if_neg]
        rintro ⟨-, -, hc⟩
        exact h3 hc

/-- Claim C10: for every list of tokens, `truecase` returns a new list of the
same length (the input itself is untouched: the Python code rewrites a copy,
and the embedding is pure); the token at each position is replaced by its
title-cased form exactly when its length exceeds 3, it does not start with
`@`, and it satisfies Python `isupper`; every other token is returned
unchanged at the same position. -/
theorem truecase_claim (tokens : List (List Char)) :
    (truecase tokens).length = tokens.length ∧
    ∀ i : Nat,
      (truecase tokens)[i]? = (tokens[i]?).map (fun t =>
        if 3 < t.length ∧ t.headI ≠ '@' ∧ pyIsUpper t = true then pyTitle t else t) := by
  constructor
  · simp [truecase]
  · intro i
    simp only [truecase, List.getElem?_map]
    cases tokens[i]? with
    | none => rfl
    | some t => simp only [Option.map_some', truecaseTok_eq]

/-! #### UTF-8 round trip -/

/-- Unfolding of `utf8Encode` on a cons. -/
theorem utf8Encode_cons (c : Nat) (cs : List Nat) :
    utf8Encode (c :: cs) = utf8EncodeChar c ++ utf8Encode cs := by
  simp [utf8Encode]

/-- Decoding a well-formed two-byte sequence. -/
theorem utf8Decode_two (b0 b1 : Nat) (rest : List Nat)
    (hb0 : 0xC2 ≤ b0 ∧ b0 ≤ 0xDF) (hb1 : 0x80 ≤ b1 ∧ b1 < 0xC0) :
    utf8Decode (b0 :: b1 :: rest) =
      (utf8Decode rest).map (fun cs => ((b0 - 0xC0) * 0x40 + (b1 - 0x80)) :: cs) := by
  rw [utf8Decode.eq_def]
  dsimp only
  rw [if_neg (by omega), if_pos hb0, if_pos hb1]

/-- Decoding a well-formed three-byte sequence. -/
theorem utf8Decode_three (b0 b1 b2 : Nat) (rest : List Nat)
    (hb0 : 0xE0 ≤ b0 ∧ b0 ≤ 0xEF) (hb1 : 0x80 ≤ b1 ∧ b1 < 0xC0)
    (hb2 : 0x80 ≤ b2 ∧ b2 < 0xC0) (hov : b0 = 0xE0 → 0xA0 ≤ b1) :
    utf8Decode (b0 :: b1 :: b2 :: rest) =
      (utf8Decode rest).map
        (fun cs => ((b0 - 0xE0) * 0x1000 + (b1 - 0x80) * 0x40 + (b2 - 0x80)) :: cs) := by
  rw [utf8Decode.eq_def]
  dsimp only
  rw [if_neg (by omega), if_neg (by omega), if_pos hb0, if_pos ⟨hb1, hb2, hov⟩]

/-- Decoding a well-formed four-byte sequence. -/
theorem utf8Decode_four (b0 b1 b2 b3 : Nat) (rest : List Nat)
    (hb0 : 0xF0 ≤ b0 ∧ b0 ≤ 0xF4) (hb1 : 0x80 ≤ b1 ∧ b1 < 0xC0)
    (hb2 : 0x80 ≤ b2 ∧ b2 < 0xC0) (hb3 : 0x80 ≤ b3 ∧ b3 < 0xC0)
    (hov : b0 = 0xF0 → 0x90 ≤ b1) (hcap : b0 = 0xF4 → b1 < 0x90) :
    utf8Decode (b0 :: b1 :: b2 :: b3 :: rest) =
      (utf8Decode rest).map (fun cs =>
        ((b0 - 0xF0) * 0x40000 + (b1 - 0x80) * 0x1000 + (b2 - 0x80) * 0x40 + (b3 - 0x80)) :: cs) := by
  rw [utf8Decode.eq_def]
  dsimp only
  rw [if_neg (by omega), if_neg (by omega), if_neg (by omega), if_pos hb0,
      if_pos ⟨hb1, hb2, hb3, hov, hcap⟩]

/-- Decoding the encoding of a single code point prepended to arbitrary
bytes. -/
theorem utf8Decode_encodeChar (c : Nat) (h : c < 0x110000) (rest : List Nat) :
    utf8Decode (utf8EncodeChar c ++ rest) = (utf8Decode rest).map (fun cs => c :: cs) := by
  by_cases h1 : c < 0x80
  · rw [show utf8EncodeChar c = [c] from by rw [utf8EncodeChar, if_pos h1]]
    simp only [List.cons_append, List.nil_append]
    rw [utf8Decode.eq_def]
    dsimp only
    rw [if_pos h1]
  · by_cases h2 : c < 0x800
    · rw [show utf8EncodeChar c = [0xC0 + c / 0x40, 0x80 + c % 0x40] from by
        rw [utf8EncodeChar, if_neg h1, if_pos h2]]
      simp only [List.cons_append, List.nil_append]
      rw [utf8Decode_two _ _ _ (by omega) (by omega)]
      have he : (0xC0 + c / 0x40 - 0xC0) * 0x40 + (0x80 + c % 0x40 - 0x80) = c := by omega
      rw [he]
    · by_cases h3 : c < 0x10000
      · rw [show utf8EncodeChar c = [0xE0 + c / 0x1000, 0x80 + c / 0x40 % 0x40, 0x80 + c % 0x40]
          from by rw [utf8EncodeChar, if_neg h1, if_neg h2, if_pos h3]]
        simp only [List.cons_append, List.nil_append]
        rw [utf8Decode_three _ _ _ _ (by omega) (by omega) (by omega) (by omega)]
        have he : (0xE0 + c / 0x1000 - 0xE0) * 0x1000 + (0x80 + c / 0x40 % 0x40 - 0x80) * 0x40 +
            (0x80 + c % 0x40 - 0x80) = c := by omega
        rw [he]
      · rw [show utf8EncodeChar c = [0xF0 + c / 0x40000, 0x80 + c / 0x1000 % 0x40,
            0x80 + c / 0x40 % 0x40, 0x80 + c % 0x40]
          from by rw [utf8EncodeChar, if_neg h1, if_neg h2, if_neg h3]]
        simp only [List.cons_append, List.nil_append]
        rw [utf8Decode_four _ _ _ _ _ (by omega) (by omega) (by omega) (by omega)
          (by omega) (by omega)]
        have he : (0xF0 + c / 0x40000 - 0xF0) * 0x40000 + (0x80 + c / 0x1000 % 0x40 - 0x80) * 0x1000 +
            (0x80 + c / 0x40 % 0x40 - 0x80) * 0x40 + (0x80 + c % 0x40 - 0x80) = c := by omega
        rw [he]

/-- The UTF-8 decoder inverts the encoder on lists of code points below
`0x110000`. -/
theorem utf8Decode_utf8Encode (cs : List Nat) (h : ∀ c ∈ cs, c < 0x110000) :
    utf8Decode (utf8Encode cs) = some cs := by
  induction cs with
  | nil => rfl
  | cons c rest ih =>
    rw [utf8Encode_cons, utf8Decode_encodeChar c (h c (List.mem_cons_self c rest)),
        ih (fun x hx => h x (List.mem_cons_of_mem c hx))]
    rfl

/-! #### Claims C8 and C9: `to_utf_8_dict` -/

/-- A second application of `to_utf_8_dict` to a byte string is the identity,
provided the bytes are genuine byte values. -/
theorem to_utf_8_str_fix (s : List Nat) (h : ∀ b ∈ s, b < 0x100) :
    to_utf_8_dict (to_utf_8_dict (PyVal.str s)) = to_utf_8_dict (PyVal.str s) := by
  cases hd : utf8Decode s with
  | some u => simp only [to_utf_8_dict, hd]
  | none =>
    simp only [to_utf_8_dict, hd, latin1Decode]
    rw [utf8Decode_utf8Encode s (fun b hb => lt_trans (h b hb) (by norm_num))]

mutual

/-- Idempotence of `to_utf_8_dict` on well-formed values. -/
theorem pyIdem : ∀ v : PyVal, pyWf v = true →
    to_utf_8_dict (to_utf_8_dict v) = to_utf_8_dict v
  | .str s, h =>
    to_utf_8_str_fix s (by
      intro b hb
      have h2 := (List.all_eq_true.mp h) b hb
      simpa using h2)
  | .uni u, h => by
    simp only [to_utf_8_dict]
    rw [utf8Decode_utf8Encode u (by
      intro c hc
      have h2 := (List.all_eq_true.mp h) c hc
      simpa using h2)]
  | .num n, _ => rfl
  | .noneV, _ => rfl
  | .listV l, h => by
    simp only [to_utf_8_dict]
    rw [pyIdemList l h]
  | .dictV d, h => by
    simp only [to_utf_8_dict]
    rw [pyIdemDict d h]

/-- Idempotence of the elementwise conversion on well-formed sequences. -/
theorem pyIdemList : ∀ l : PyList, pyWfList l = true →
    to_utf_8_list (to_utf_8_list l) = to_utf_8_list l
  | .nil, _ => rfl
  | .cons v rest, h => by
    have hv : pyWf v = true := by
      have := h
      simp only [pyWfList, Bool.and_eq_true] at this
      exact this.1
    have hr : pyWfList rest = true := by
      simp only [pyWfList, Bool.and_eq_true] at h
      exact h.2
    simp only [to_utf_8_list]
    rw [pyIdem v hv, pyIdemList rest hr]

/-- Idempotence of the pairwise conversion on well-formed mapping items. -/
theorem pyIdemDict : ∀ d : PyDict, pyWfDict d = true →
    to_utf_8_pairs (to_utf_8_pairs d) = to_utf_8_pairs d
  | .nil, _ => rfl
  | .cons k v rest, h => by
    have h3 : pyWf k = true ∧ pyWf v = true ∧ pyWfDict rest = true := by
      simp only [pyWfDict, Bool.and_eq_true, and_assoc] at h
      exact h
    simp only [to_utf_8_pairs]
    rw [pyIdem k h3.1, pyIdem v h3.2.1, pyIdemDict rest h3.2.2]

end

/-- Claim C8: the encoding-normalization function `to_utf_8_dict` (applied by
`json_dump` before every JSON serialization) tries to decode each byte string
as UTF-8 and returns it unchanged on success; only on a decode failure does it
decode the string as latin-1 and re-encode it as UTF-8; unicode strings are
encoded to UTF-8; the conversion recurses through nested sequence and mapping
structures (converting mapping keys and values alike); and non-text leaves are
returned unchanged. -/
theorem to_utf_8_dict_claim :
    (∀ s u, utf8Decode s = some u → to_utf_8_dict (.str s) = .str s) ∧
    (∀ s, utf8Decode s = none →
        to_utf_8_dict (.str s) = .str (utf8Encode (latin1Decode s))) ∧
    (∀ u, to_utf_8_dict (.uni u) = .str (utf8Encode u)) ∧
    (∀ v l, to_utf_8_dict (.listV (.cons v l)) =
        .listV (.cons (to_utf_8_dict v) (to_utf_8_list l))) ∧
    to_utf_8_dict (.listV .nil) = .listV .nil ∧
    (∀ k v d, to_utf_8_dict (.dictV (.cons k v d)) =
        .dictV (.cons (to_utf_8_dict k) (to_utf_8_dict v) (to_utf_8_pairs d))) ∧
    to_utf_8_dict (.dictV .nil) = .dictV .nil ∧
    (∀ n, to_utf_8_dict (.num n) = .num n) ∧
    to_utf_8_dict .noneV = .noneV := by
  refine ⟨?_, ?_, fun u => rfl, fun v l => rfl, rfl, fun k v d => rfl, rfl, fun n => rfl, rfl⟩
  · intro s u hd
    simp only [to_utf_8_dict, hd]
  · intro s hd
    simp only [to_utf_8_dict, hd]

/-- Witness for claim C8 at concrete inputs: the valid UTF-8 byte string
`[0x41]` is kept as is, the invalid byte string `[0xFF]` is re-encoded from
latin-1, and the unicode string `[0x3B1]` is encoded. -/
theorem to_utf_8_dict_claim_witness :
    to_utf_8_dict (.str [0x41]) = .str [0x41] ∧
    to_utf_8_dict (.str [0xFF]) = .str (utf8Encode (latin1Decode [0xFF])) ∧
    to_utf_8_dict (.uni [0x3B1]) = .str (utf8Encode [0x3B1]) :=
  ⟨to_utf_8_dict_claim.1 [0x41] [0x41] (by decide),
   to_utf_8_dict_claim.2.1 [0xFF] (by decide),
   to_utf_8_dict_claim.2.2.1 [0x3B1]⟩

/-- Claim C9: `to_utf_8_dict` is idempotent on every value built from byte
strings, unicode strings, sequences, mappings and other scalars. -/
theorem to_utf_8_dict_idem (v : PyVal) (h : pyWf v = true) :
    to_utf_8_dict (to_utf_8_dict v) = to_utf_8_dict v :=
  pyIdem v h

/-- Witness for claim C9: idempotence at a concrete nested mapping holding an
invalid UTF-8 byte string and a unicode string. -/
theorem to_utf_8_dict_idem_witness :
    pyWf (PyVal.dictV (.cons (.str [0xFF, 0x41]) (.uni [0x3B1]) .nil)) = true ∧
    to_utf_8_dict (to_utf_8_dict (PyVal.dictV (.cons (.str [0xFF, 0x41]) (.uni [0x3B1]) .nil))) =
      to_utf_8_dict (PyVal.dictV (.cons (.str [0xFF, 0x41]) (.uni [0x3B1]) .nil)) :=
  ⟨by decide, to_utf_8_dict_idem _ (by decide)⟩

/-! #### Claim C2: deduplication in stage 6 -/

/-- Set insertion: membership in `addSeg` adds exactly the inserted segment. -/
theorem mem_addSeg (x s : String) (r : DedupRec) :
    x ∈ (addSeg s r).segm ↔ x ∈ r.segm ∨ x = s := by
  simp only [addSeg]
  split_ifs with h
  · constructor
    · exact fun hx => Or.inl hx
    · rintro (hx | rfl)
      · exact hx
      · exact h
  · simp [List.mem_append]

/-- `addSeg` does not touch the stored annotation. -/
theorem gse_addSeg (s : String) (r : DedupRec) : (addSeg s r).gse = r.gse := rfl

/-- Lookup after `insertItem`: the entry for the inserted link is updated or
created; every other entry is untouched. -/
theorem lookupRec_insertItem (seg : String) (item : GseItem)
    (st : List (String × DedupRec)) (u : String) :
    lookupRec (insertItem seg item st) u =
      if item.link = u then
        match lookupRec st u with
        | some r => some (addSeg seg r)
        | none => some ⟨item, [seg]⟩
      else lookupRec st u := by
  induction st with
  | nil =>
    by_cases h : item.link = u
    · rw [if_pos h]
      simp [insertItem, lookupRec, h]
    · rw [if_neg h]
      simp only [insertItem, lookupRec]
      rw [if_neg h]
  | cons p rest ih =>
    obtain ⟨k, r⟩ := p
    by_cases hk : k = item.link
    · simp only [insertItem, if_pos hk]
      by_cases hu : k = u
      · have hlu : item.link = u := hk.symm.trans hu
        rw [if_pos hlu]
        simp only [lookupRec]
        rw [if_pos hu, if_pos hu]
      · have hlu : ¬item.link = u := fun h2 => hu (hk.trans h2)
        rw [if_neg hlu]
        simp only [lookupRec]
        rw [if_neg hu, if_neg hu]
    · simp only [insertItem, if_neg hk]
      by_cases hu : k = u
      · have hlu : ¬item.link = u := fun h2 => hk (hu.trans h2.symm)
        rw [if_neg hlu]
        simp only [lookupRec]
        rw [if_pos hu, if_pos hu]
      · simp only [lookupRec]
        rw [if_neg hu, if_neg hu, ih]

/-- Keys after `insertItem`: unchanged when the link is already a key,
extended by the link otherwise. -/
theorem keys_insertItem (seg : String) (item : GseItem) (st : List (String × DedupRec)) :
    (insertItem seg item st).map Prod.fst =
      if item.link ∈ st.map Prod.fst then st.map Prod.fst
      else st.map Prod.fst ++ [item.link] := by
  induction st with
  | nil => simp [insertItem]
  | cons p rest ih =>
    obtain ⟨k, r⟩ := p
    by_cases hk : k = item.link
    · subst hk
      simp [insertItem, List.mem_cons]
    · simp only [insertItem, if_neg hk, List.map_cons, List.mem_cons]
      have hne : ¬item.link = k := fun h2 => hk h2.symm
      by_cases hmem : item.link ∈ rest.map Prod.fst
      · rw [if_pos (Or.inr hmem)]
        rw [ih, if_pos hmem]
      · rw [if_neg (by rintro (h | h); exact hne h; exact hmem h)]
        rw [ih, if_neg hmem]
        simp

/-- `insertItem` keeps the key list duplicate-free. -/
theorem nodup_insertItem (seg : String) (item : GseItem) (st : List (String × DedupRec))
    (h : (st.map Prod.fst).Nodup) : ((insertItem seg item st).map Prod.fst).Nodup := by
  rw [keys_insertItem]
  split_ifs with hmem
  · exact h
  · simp [List.nodup_append, h, hmem]

/-- `dedupFold` keeps the key list duplicate-free. -/
theorem nodup_dedupFold (F : List (String × GseItem)) :
    ∀ st : List (String × DedupRec), (st.map Prod.fst).Nodup →
      ((dedupFold F st).map Prod.fst).Nodup := by
  induction F with
  | nil => exact fun st h => h
  | cons p F ih =>
    intro st h
    exact ih (insertItem p.1 p.2 st) (nodup_insertItem p.1 p.2 st h)

/-- `dedupFold` preserves the annotation stored for a URL that is already a
key. -/
theorem dedupFold_gse_some (F : List (String × GseItem)) :
    ∀ (st : List (String × DedupRec)) (u : String) (r : DedupRec),
      lookupRec st u = some r →
      ∃ r2, lookupRec (dedupFold F st) u = some r2 ∧ r2.gse = r.gse := by
  induction F with
  | nil => exact fun st u r h => ⟨r, h, rfl⟩
  | cons p F ih =>
    intro st u r h
    by_cases hl : p.2.link = u
    · have h2 : lookupRec (insertItem p.1 p.2 st) u = some (addSeg p.1 r) := by
        rw [lookupRec_insertItem, if_pos hl, h]
      obtain ⟨r2, h3, h4⟩ := ih (insertItem p.1 p.2 st) u (addSeg p.1 r) h2
      exact ⟨r2, h3, by rw [h4, gse_addSeg]⟩
    · have h2 : lookupRec (insertItem p.1 p.2 st) u = some r := by
        rw [lookupRec_insertItem, if_neg hl, h]
      exact ih (insertItem p.1 p.2 st) u r h2

/-- For a URL that is not yet a key, the annotation recorded by `dedupFold`
is the one of the first pair carrying that link. -/
theorem dedupFold_gse_none (F : List (String × GseItem)) :
    ∀ (st : List (String × DedupRec)) (u : String), lookupRec st u = none →
      (lookupRec (dedupFold F st) u).map DedupRec.gse =
        (F.find? (fun p => p.2.link == u)).map (fun p => p.2) := by
  induction F with
  | nil => intro st u h; simp [dedupFold, h]
  | cons p F ih =>
    intro st u h
    by_cases hl : p.2.link = u
    · have h2 : lookupRec (insertItem p.1 p.2 st) u = some ⟨p.2, [p.1]⟩ := by
        rw [lookupRec_insertItem, if_pos hl, h]
      obtain ⟨r2, h3, h4⟩ :=
        dedupFold_gse_some F (insertItem p.1 p.2 st) u ⟨p.2, [p.1]⟩ h2
      have hfind : List.find? (fun p => p.2.link == u) (p :: F) = some p := by
        rw [List.find?_cons_of_pos]
        simp [hl]
      rw [hfind]
      show (lookupRec (dedupFold F (insertItem p.1 p.2 st)) u).map DedupRec.gse = some p.2
      rw [h3]
      simpa using h4
    · have h2 : lookupRec (insertItem p.1 p.2 st) u = none := by
        rw [lookupRec_insertItem, if_neg hl, h]
      have hfind : List.find? (fun p => p.2.link == u) (p :: F) =
          List.find? (fun p => p.2.link == u) F := by
        rw [List.find?_cons_of_neg]
        simp [hl]
      rw [hfind]
      exact ih (insertItem p.1 p.2 st) u h2

/-- Segment membership after `dedupFold`: a segment is recorded for a URL iff
it was already recorded or some processed pair carries that segment and that
URL. -/
theorem dedupFold_segm (F : List (String × GseItem)) :
    ∀ (st : List (String × DedupRec)) (u x : String),
      (∃ r, lookupRec (dedupFold F st) u = some r ∧ x ∈ r.segm) ↔
        ((∃ r, lookupRec st u = some r ∧ x ∈ r.segm) ∨
          ∃ it, (x, it) ∈ F ∧ it.link = u) := by
  induction F with
  | nil => intro st u x; simp [dedupFold]
  | cons p F ih =>
    intro st u x
    have step : (∃ r, lookupRec (insertItem p.1 p.2 st) u = some r ∧ x ∈ r.segm) ↔
        ((∃ r, lookupRec st u = some r ∧ x ∈ r.segm) ∨ (p.2.link = u ∧ x = p.1)) := by
      by_cases hl : p.2.link = u
      · cases hst : lookupRec st u with
        | some r =>
          rw [lookupRec_insertItem, if_pos hl, hst]
          simp only [Option.some.injEq]
          constructor
          · rintro ⟨r2, rfl, hx⟩
            rcases (mem_addSeg x p.1 r).mp hx with hx2 | hx2
            · exact Or.inl ⟨r, rfl, hx2⟩
            · exact Or.inr ⟨hl, hx2⟩
          · rintro (⟨r2, hr2, hx⟩ | ⟨-, hx⟩)
            · obtain rfl : r = r2 := hr2
              exact ⟨addSeg p.1 r, rfl, (mem_addSeg x p.1 r).mpr (Or.inl hx)⟩
            · exact ⟨addSeg p.1 r, rfl, (mem_addSeg x p.1 r).mpr (Or.inr hx)⟩
        | none =>
          rw [lookupRec_insertItem, if_pos hl, hst]
          simp only [Option.some.injEq]
          constructor
          · rintro ⟨r2, rfl, hx⟩
            simp only [List.mem_singleton] at hx
            exact Or.inr ⟨hl, hx⟩
          · rintro (⟨r2, hr2, hx⟩ | ⟨-, rfl⟩)
            · exact absurd hr2 (by simp)
            · exact ⟨⟨p.2, [p.1]⟩, rfl, by simp⟩
      · rw [lookupRec_insertItem, if_neg hl]
        constructor
        · exact fun h => Or.inl h
        · rintro (h | ⟨hl2, -⟩)
          · exact h
          · exact absurd hl2 hl
    rw [show dedupFold (p :: F) st = dedupFold F (insertItem p.1 p.2 st) from rfl,
        ih, step]
    constructor
    · rintro ((hA | ⟨hl, rfl⟩) | ⟨it, hit, hl⟩)
      · exact Or.inl hA
      · exact Or.inr ⟨p.2, by simp, hl⟩
      · exact Or.inr ⟨it, List.mem_cons_of_mem p hit, hl⟩
    · rintro (hA | ⟨it, hit, hl⟩)
      · exact Or.inl (Or.inl hA)
      · rcases List.mem_cons.mp hit with heq | hmem
        · have hx : x = p.1 := congrArg Prod.fst heq
          have hi : it = p.2 := congrArg Prod.snd heq
          subst hi
          exact Or.inl (Or.inr ⟨hl, hx⟩)
        · exact Or.inr ⟨it, hmem, hl⟩

/-- The nested loop of `dedupOrigin` is `dedupFold` applied to the flattened,
blacklist-filtered pairs. -/
theorem dedupOrigin_eq_dedupFold (black : String → Bool) (simplify : String → String)
    (gse : List SegmentEntry) :
    dedupOrigin black simplify gse = dedupFold (nonBlackPairs black simplify gse) [] := by
  have step1 : ∀ (g : List SegmentEntry) (st : List (String × DedupRec)),
      g.foldl (fun st2 e =>
        e.foundItems.foldl (fun st3 it => dedupInsert black st3 (simplify e.segment) it) st2) st =
      (gsePairs simplify g).foldl (fun st2 p => dedupInsert black st2 p.1 p.2) st := by
    intro g
    induction g with
    | nil => intro st; simp [gsePairs]
    | cons e g ih =>
      intro st
      rw [List.foldl_cons]
      rw [ih]
      have : gsePairs simplify (e :: g) =
          e.foundItems.map (fun it => (simplify e.segment, it)) ++ gsePairs simplify g := by
        simp [gsePairs]
      rw [this, List.foldl_append, List.foldl_map]
  have step2 : ∀ (P : List (String × GseItem)) (st : List (String × DedupRec)),
      P.foldl (fun st2 p => dedupInsert black st2 p.1 p.2) st =
      dedupFold (P.filter (fun p => !black p.2.link)) st := by
    intro P
    induction P with
    | nil => intro st; simp [dedupFold]
    | cons p P ih =>
      intro st
      rw [List.foldl_cons]
      by_cases hb : black p.2.link = true
      · rw [show dedupInsert black st p.1 p.2 = st from by rw [dedupInsert, if_pos hb]]
        rw [ih]
        have : (p :: P).filter (fun p => !black p.2.link) =
            P.filter (fun p => !black p.2.link) := by
          rw [List.filter_cons_of_neg]
          simp [hb]
        rw [this]
      · rw [show dedupInsert black st p.1 p.2 = insertItem p.1 p.2 st from by
          rw [dedupInsert, if_neg hb]]
        rw [ih]
        have : (p :: P).filter (fun p => !black p.2.link) =
            p :: P.filter (fun p => !black p.2.link) := by
          rw [List.filter_cons_of_pos]
          simp [hb]
        rw [this]
        rfl
  rw [dedupOrigin, step1, step2, nonBlackPairs]

/-- Claim C2: in the discovery/deduplication part of stage 6, each URL
returned by search is a key of the output map at most once; the segment set
stored for a URL is exactly the set of simplified segments whose search
results contained that URL (past the blacklist); and the annotation stored
for a URL is exactly the first one encountered for it in iteration order,
later duplicates being discarded. -/
theorem step6_dedup_claim (black : String → Bool) (simplify : String → String)
    (gse : List SegmentEntry) :
    ((dedupOrigin black simplify gse).map Prod.fst).Nodup ∧
    ∀ u r, lookupRec (dedupOrigin black simplify gse) u = some r →
      some r.gse =
        ((nonBlackPairs black simplify gse).find? (fun p => p.2.link == u)).map (fun p => p.2) ∧
      ∀ x, x ∈ r.segm ↔ ∃ it, (x, it) ∈ nonBlackPairs black simplify gse ∧ it.link = u := by
  rw [dedupOrigin_eq_dedupFold]
  refine ⟨nodup_dedupFold _ [] (by simp), ?_⟩
  intro u r hr
  constructor
  · have h := dedupFold_gse_none (nonBlackPairs black simplify gse) [] u rfl
    rw [hr] at h
    simpa using h
  · intro x
    have h := dedupFold_segm (nonBlackPairs black simplify gse) [] u x
    rw [hr] at h
    simp only [lookupRec] at h
    constructor
    · intro hx
      rcases h.mp ⟨r, rfl, hx⟩ with hc | hc
      · obtain ⟨r2, h2, -⟩ := hc
        exact absurd h2 (by simp)
      · exact hc
    · intro hx
      rcases h.mpr (Or.inr hx) with ⟨r2, h2, hx2⟩
      obtain rfl : r = r2 := by injection h2
      exact hx2

/-- Witness for claim C2 at a concrete input: two segments both return the
URL `"u"`; the output has a single key, its annotation is the first item
(payload `"a"`), and its segment set contains both segments. -/
theorem step6_dedup_claim_witness :
    ((dedupOrigin (fun _ => false) id
        [⟨"s1", [⟨"u", "a"⟩]⟩, ⟨"s2", [⟨"u", "b"⟩]⟩]).map Prod.fst).Nodup ∧
    some (GseItem.mk "u" "a") =
      ((nonBlackPairs (fun _ => false) id
          [⟨"s1", [⟨"u", "a"⟩]⟩, ⟨"s2", [⟨"u", "b"⟩]⟩]).find?
        (fun p => p.2.link == "u")).map (fun p => p.2) ∧
    ("s2" ∈ (DedupRec.mk ⟨"u", "a"⟩ ["s1", "s2"]).segm ↔
      ∃ it, ("s2", it) ∈ nonBlackPairs (fun _ => false) id
          [⟨"s1", [⟨"u", "a"⟩]⟩, ⟨"s2", [⟨"u", "b"⟩]⟩] ∧ it.link = "u") := by
  have h := step6_dedup_claim (fun _ => false) id
    [⟨"s1", [⟨"u", "a"⟩]⟩, ⟨"s2", [⟨"u", "b"⟩]⟩]
  have h2 := h.2 "u" ⟨⟨"u", "a"⟩, ["s1", "s2"]⟩ (by decide)
  exact ⟨h.1, by
    have := h2.1
    simpa using this, h2.2 "s2"⟩

/-! #### Claim C1: threshold law in stage 6 -/

/-- Inversion for `mapExcept`: every element of a successful result comes from
some input element. -/
theorem mapExcept_mem {α β : Type} (f : α → Except Unit β) :
    ∀ (l : List α) (ys : List β), mapExcept f l = .ok ys →
      ∀ y ∈ ys, ∃ x ∈ l, f x = .ok y := by
  intro l
  induction l with
  | nil =>
    intro ys h y hy
    obtain rfl : ([] : List β) = ys := by
      simpa [mapExcept] using h
    simp at hy
  | cons x rest ih =>
    intro ys h y hy
    rw [mapExcept] at h
    cases hf : f x with
    | error e => rw [hf] at h; simp at h
    | ok y0 =>
      rw [hf] at h
      cases hm : mapExcept f rest with
      | error e => rw [hm] at h; simp at h
      | ok ys0 =>
        rw [hm] at h
        obtain rfl : y0 :: ys0 = ys := by simpa using h
        rcases List.mem_cons.mp hy with rfl | hy0
        · exact ⟨x, List.mem_cons_self x rest, hf⟩
        · obtain ⟨x2, hx2, hfx2⟩ := ih ys0 hm y hy0
          exact ⟨x2, List.mem_cons_of_mem x hx2, hfx2⟩

/-- The update `if r > b then r else b` of the fuzzy loop is `max`. -/
theorem if_gt_eq_max (b r : ℚ) : (if r > b then r else b) = max b r := by
  split_ifs with h
  · exact (max_eq_right h.le).symm
  · exact (max_eq_left (not_lt.mp h)).symm

/-- Characterization of the fuzzy loop from an arbitrary accumulator. -/
theorem fuzzyFold_char (fz : String → String → ℚ × String) (body : String) :
    ∀ (segs : List String) (b0 : ℚ) (ms0 : List FuzzyMatch),
      segs.foldl
        (fun acc seg =>
          (if (fz body seg).1 > acc.1 then (fz body seg).1 else acc.1,
           acc.2 ++ [⟨(fz body seg).2, (fz body seg).1⟩])) (b0, ms0) =
      ((segs.map (fun s => (fz body s).1)).foldl max b0,
       ms0 ++ segs.map (fun s => ⟨(fz body s).2, (fz body s).1⟩)) := by
  intro segs
  induction segs with
  | nil => intro b0 ms0; simp
  | cons s segs ih =>
    intro b0 ms0
    rw [List.foldl_cons, ih]
    simp [if_gt_eq_max]

/-- `fuzzyFold` computes the max of the per-segment ratios (starting from 0)
together with the list of per-segment matches. -/
theorem fuzzyFold_spec (fz : String → String → ℚ × String) (body : String)
    (segs : List String) :
    fuzzyFold fz body segs =
      ((segs.map (fun s => (fz body s).1)).foldl max 0,
       segs.map (fun s => ⟨(fz body s).2, (fz body s).1⟩)) := by
  rw [fuzzyFold, fuzzyFold_char]
  simp

/-- Inversion for `processRelated`: the fields of a successfully produced
candidate. -/
theorem processRelated_ok (c : Step6Collab) (url : String) (r : DedupRec)
    (cand : Candidate) (h : processRelated c url r = .ok cand) :
    cand.url = url ∧ cand.segments = r.segm ∧ cand.gseData = r.gse ∧
    ∃ body0, c.extractBody url (c.fetch url) = .ok body0 ∧
      cand.body = c.simplify body0 ∧
      cand.bestRatio =
        (r.segm.map (fun s => (c.fuzzySearch (c.simplify body0) s).1)).foldl max 0 ∧
      cand.foundMatches = r.segm.map (fun s =>
        ⟨(c.fuzzySearch (c.simplify body0) s).2, (c.fuzzySearch (c.simplify body0) s).1⟩) ∧
      cand.highRatio = decide (cand.bestRatio > (0.5 : ℚ)) := by
  rw [processRelated] at h
  cases hb : c.extractBody url (c.fetch url) with
  | error e => rw [hb] at h; simp at h
  | ok body0 =>
    rw [hb] at h
    dsimp only at h
    rw [fuzzyFold_spec] at h
    simp only [Except.ok.injEq] at h
    subst h
    exact ⟨rfl, rfl, rfl, body0, rfl, rfl, rfl, rfl, rfl⟩

/-- An element of a `foldl max` list bounds: the fold stays between the seed
and any upper bound of the seed and the list. -/
theorem foldl_max_bounds (l : List ℚ) :
    ∀ b : ℚ, b ≤ l.foldl max b ∧ (∀ hi : ℚ, b ≤ hi → (∀ x ∈ l, x ≤ hi) → l.foldl max b ≤ hi) := by
  induction l with
  | nil => intro b; exact ⟨le_refl b, fun hi hb _ => hb⟩
  | cons x l ih =>
    intro b
    constructor
    · exact le_trans (le_max_left b x) (ih (max b x)).1
    · intro hi hb hall
      exact (ih (max b x)).2 hi (max_le hb (hall x (List.mem_cons_self x l)))
        (fun y hy => hall y (List.mem_cons_of_mem x hy))

/-- Claim C1: for every candidate record written by stage 6 (under the
hypothesis that the fuzzy matcher returns ratios in [0,1]): `highRatio` holds
iff `bestRatio > 0.5`; `bestRatio` is the maximum of the per-segment ratios,
0 when no ratio is positive (the fold of `max` seeded with 0); and every
recorded per-segment ratio lies in [0,1]. -/
theorem step6_threshold_claim (c : Step6Collab)
    (hf : ∀ b s, 0 ≤ (c.fuzzySearch b s).1 ∧ (c.fuzzySearch b s).1 ≤ 1)
    (gse : List SegmentEntry) (cands : List Candidate)
    (hok : step6Origin c gse = .ok cands) (cand : Candidate) (hmem : cand ∈ cands) :
    (cand.highRatio = true ↔ cand.bestRatio > (0.5 : ℚ)) ∧
    cand.bestRatio = (cand.foundMatches.map FuzzyMatch.ratio).foldl max 0 ∧
    (∀ m ∈ cand.foundMatches, 0 ≤ m.ratio ∧ m.ratio ≤ 1) ∧
    0 ≤ cand.bestRatio ∧ cand.bestRatio ≤ 1 := by
  obtain ⟨p, hp, hproc⟩ := mapExcept_mem _ _ _ hok cand hmem
  obtain ⟨-, -, -, body0, -, -, hbest, hmatches, hhigh⟩ :=
    processRelated_ok c p.1 p.2 cand hproc
  have hratios : (cand.foundMatches.map FuzzyMatch.ratio) =
      p.2.segm.map (fun s => (c.fuzzySearch (c.simplify body0) s).1) := by
    rw [hmatches, List.map_map]
    rfl
  refine ⟨?_, ?_, ?_, ?_, ?_⟩
  · rw [hhigh]
    exact decide_eq_true_iff
  · rw [hbest, hratios]
  · intro m hm
    rw [hmatches] at hm
    obtain ⟨s, -, rfl⟩ := List.mem_map.mp hm
    exact hf (c.simplify body0) s
  · rw [hbest]
    exact (foldl_max_bounds _ 0).1
  · rw [hbest]
    refine (foldl_max_bounds _ 0).2 1 (by norm_num) ?_
    intro x hx
    obtain ⟨s, -, rfl⟩ := List.mem_map.mp hx
    exact (hf (c.simplify body0) s).2

/-- Stage 6 on the concrete input `gse6W` under `c6W` produces exactly the
candidate `cand6W`. -/
theorem step6Origin_c6W : step6Origin c6W gse6W = .ok [cand6W] := by
  have hd : dedupOrigin c6W.black c6W.simplify gse6W =
      [("hu", ⟨⟨"hu", "an"⟩, ["sg"]⟩)] := by decide
  rw [step6Origin, hd, mapExcept]
  have hrec : processRelated c6W "hu" ⟨⟨"hu", "an"⟩, ["sg"]⟩ = .ok cand6W := by
    rw [processRelated]
    norm_num [c6W, fuzzyFold_spec, cand6W, Candidate.mk.injEq, FuzzyMatch.mk.injEq]
  rw [hrec]
  rfl

/-- Witness for claim C1 at a concrete input (collaborators `c6W`, checkpoint
`gse6W`, candidate `cand6W` with its single fuzzy ratio 7/10). -/
theorem step6_threshold_claim_witness :
    (cand6W.highRatio = true ↔ cand6W.bestRatio > (0.5 : ℚ)) ∧
    cand6W.bestRatio = (cand6W.foundMatches.map FuzzyMatch.ratio).foldl max 0 ∧
    (∀ m ∈ cand6W.foundMatches, 0 ≤ m.ratio ∧ m.ratio ≤ 1) ∧
    0 ≤ cand6W.bestRatio ∧ cand6W.bestRatio ≤ 1 :=
  step6_threshold_claim c6W
    (by intro b s; constructor <;> norm_num [c6W]) gse6W [cand6W] step6Origin_c6W cand6W
    (List.mem_singleton_self _)

/-! #### Claims C3 and C4: error containment and ref_id assignment in stage 7 -/

/-- Unfolding of the stage-7 loop on a candidate that passes all gates. -/
theorem step7Go_success (c : Step7Collab) (n : Nat) (e : LinkEntry)
    (rest : List LinkEntry) (article : Article) (t : String) (ts : List String)
    (hhr : e.highRatio = true) (hbl : c.black e.url = false)
    (hparse : c.parseArticle e.url e.html = .ok article)
    (htitles : c.extractTitles article = t :: ts) :
    step7Go c n (e :: rest) = step7Rec c n e article t :: step7Go c (n + 1) rest := by
  rw [step7Go]
  rw [if_neg (by simp [hhr]), if_neg (by simp [hbl]), hparse]
  dsimp only
  rw [htitles]

/-- A candidate whose HTML fails to parse contributes nothing to the stage-7
output and does not advance the id counter: the loop behaves as if the
candidate were absent. -/
theorem step7Go_skip_parse (c : Step7Collab) (bad : LinkEntry)
    (hfail : c.parseArticle bad.url bad.html = .error ()) :
    ∀ (xs ys : List LinkEntry) (n : Nat),
      step7Go c n (xs ++ bad :: ys) = step7Go c n (xs ++ ys) := by
  intro xs
  induction xs with
  | nil =>
    intro ys n
    simp only [List.nil_append]
    rw [step7Go]
    split_ifs with h1 h2
    · rfl
    · rfl
    · rw [hfail]
  | cons x xs ih =>
    intro ys n
    simp only [List.cons_append]
    rw [step7Go]
    conv_rhs => rw [step7Go]
    split_ifs with h1 h2
    · exact ih ys n
    · exact ih ys n
    · cases hp : c.parseArticle x.url x.html with
      | error err => dsimp only; exact ih ys n
      | ok article =>
        dsimp only
        cases ht : c.extractTitles article with
        | nil => dsimp only; exact ih ys n
        | cons t ts =>
          dsimp only
          rw [ih ys (n + 1)]

/-- Claim C3 (amended): in the metadata-extraction stage, a parse failure on
one candidate is contained — that candidate's record is omitted and the stage
output is exactly the output on the remaining candidates, with ids
unaffected. -/
theorem step7_parse_containment (c : Step7Collab) (xs ys : List LinkEntry)
    (bad : LinkEntry) (hfail : c.parseArticle bad.url bad.html = .error ()) :
    step7Origin c (xs ++ bad :: ys) = step7Origin c (xs ++ ys) :=
  step7Go_skip_parse c bad hfail xs ys 1

/-- Witness for the amended claim C3: under `c7W`, parsing fails exactly on
`"u2"`, and the stage output on [u1, u2, u3] equals the output on [u1, u3]. -/
theorem step7_parse_containment_witness :
    step7Origin c7W [entry7 "u1", entry7 "u2", entry7 "u3"] =
      step7Origin c7W [entry7 "u1", entry7 "u3"] :=
  step7_parse_containment c7W [entry7 "u1"] [entry7 "u3"] (entry7 "u2") (by decide)

/-- Counterexample to claim C3 as stated: in the verification stage (stage 6)
nothing catches a failure inside one origin's processing.  With `c6bad`, the
first origin's only URL makes body extraction raise, and the whole stage
aborts with that exception — it does not continue with the second origin,
although that origin alone would process successfully. -/
theorem step6_stage_abort_counterexample :
    step6Stage c6bad [gseBad, gse6W] = .error () ∧
    (step6Origin c6bad gse6W).isOk = true := by
  constructor
  · decide
  · decide

/-- The ids assigned by the stage-7 loop starting from counter `n` are the
consecutive integers `n, n+1, ...` with no gaps. -/
theorem step7Go_ids (c : Step7Collab) :
    ∀ (entries : List LinkEntry) (n : Nat),
      (step7Go c n entries).map CRRecord.id =
        List.range' n (step7Go c n entries).length := by
  intro entries
  induction entries with
  | nil => intro n; rfl
  | cons e rest ih =>
    intro n
    rw [step7Go]
    split_ifs with h1 h2
    · exact ih n
    · exact ih n
    · cases hp : c.parseArticle e.url e.html with
      | error err => dsimp only; exact ih n
      | ok article =>
        dsimp only
        cases ht : c.extractTitles article with
        | nil => dsimp only; exact ih n
        | cons t ts =>
          dsimp only
          rw [List.map_cons, List.length_cons, List.range'_succ, ih (n + 1)]
          rfl

/-- Claim C4 (amended): within one origin's batch, the `ref_id`s assigned by
stage 7 are the consecutive integers 1, 2, ..., k: the counter starts at 1
and increments exactly once per successful extraction, so skipped candidates
consume no id and the assigned sequence has no gaps. -/
theorem step7_ids_claim (c : Step7Collab) (entries : List LinkEntry) :
    (step7Origin c entries).map CRRecord.id =
      List.range' 1 (step7Origin c entries).length :=
  step7Go_ids c entries 1

/-- Counterexample to claim C4's gap clause: under `c7W` the candidate
`"u2"` fails to parse and is skipped, yet the assigned id sequence is the
gapless [1, 2] — the surviving candidates are u1 and u3, and u3 receives id
2, not 3. -/
theorem step7_ids_counterexample :
    (step7Origin c7W [entry7 "u1", entry7 "u2", entry7 "u3"]).map CRRecord.id = [1, 2] ∧
    (step7Origin c7W [entry7 "u1", entry7 "u2", entry7 "u3"]).map CRRecord.url =
      ["u1", "u3"] := by
  constructor
  · decide
  · decide

/-! #### Claim C5: publication-date selection in stage 7 -/

/-- Claim C5: for a candidate that passes the gates of stage 7 (high ratio,
not blacklisted, parseable, with a title), the record is produced regardless
of the outcome of date extraction; its `pub_date` is absent when date
extraction or normalization raises, or when the normalized set is empty; and
when normalized dates exist, `pub_date` is their minimum (the earliest
date). -/
theorem step7_pubdate_claim (c : Step7Collab) (e : LinkEntry) (rest : List LinkEntry)
    (n : Nat) (article : Article) (t : String) (ts : List String)
    (hhr : e.highRatio = true) (hbl : c.black e.url = false)
    (hparse : c.parseArticle e.url e.html = .ok article)
    (htitles : c.extractTitles article = t :: ts) :
    step7Go c n (e :: rest) = step7Rec c n e article t :: step7Go c (n + 1) rest ∧
    (c.extractDates e.gseData = .error () → (step7Rec c n e article t).pub_date = none) ∧
    (∀ raw, c.extractDates e.gseData = .ok raw → c.normalizeDates raw = .error () →
      (step7Rec c n e article t).pub_date = none) ∧
    (∀ raw, c.extractDates e.gseData = .ok raw → c.normalizeDates raw = .ok [] →
      (step7Rec c n e article t).pub_date = none) ∧
    (∀ raw dates, c.extractDates e.gseData = .ok raw → c.normalizeDates raw = .ok dates →
      dates ≠ [] →
      (step7Rec c n e article t).pub_date = dates.min? ∧
      ∀ m, dates.min? = some m → m ∈ dates ∧ ∀ d ∈ dates, m ≤ d) := by
  refine ⟨step7Go_success c n e rest article t ts hhr hbl hparse htitles, ?_, ?_, ?_, ?_⟩
  · intro hd
    show computePubDate c e.gseData = none
    rw [computePubDate, hd]
  · intro raw hd hn
    show computePubDate c e.gseData = none
    rw [computePubDate, hd]
    dsimp only
    rw [hn]
  · intro raw hd hn
    show computePubDate c e.gseData = none
    rw [computePubDate, hd]
    dsimp only
    rw [hn]
    rfl
  · intro raw dates hd hn hne
    constructor
    · show computePubDate c e.gseData = dates.min?
      rw [computePubDate, hd]
      dsimp only
      rw [hn]
      dsimp only
      rw [if_pos (List.length_pos.mpr hne)]
    · intro m hm
      exact List.min?_eq_some_iff'.mp hm

/-- Witness for claim C5: under `c7W` the raw dates 2020.05.02, 2020.03.11,
2020.04.01 normalize to their chronological encodings and the earliest,
2020.03.11, becomes `pub_date`; the record is produced. -/
theorem step7_pubdate_claim_witness :
    step7Go c7W 1 [entry7 "u1"] = [step7Rec c7W 1 (entry7 "u1") ⟨"txt"⟩ "ti"] ∧
    (step7Rec c7W 1 (entry7 "u1") ⟨"txt"⟩ "ti").pub_date = some 20200311 := by
  have h := step7_pubdate_claim c7W (entry7 "u1") [] 1 ⟨"txt"⟩ "ti" []
    (by decide) (by decide) (by decide) rfl
  refine ⟨h.1, ?_⟩
  have h5 := h.2.2.2.2 ["2020.05.02", "2020.03.11", "2020.04.01"]
    [20200502, 20200311, 20200401] rfl (by decide) (by decide)
  rw [h5.1]
  decide

/-! #### Claim C6: blacklist enforcement -/

/-- Every key of `insertItem`'s output satisfies any predicate holding for
the input keys and for the inserted link. -/
theorem insertItem_pred (P : String → Prop) (seg : String) (item : GseItem)
    (st : List (String × DedupRec)) (hst : ∀ p ∈ st, P p.1) (hit : P item.link) :
    ∀ p ∈ insertItem seg item st, P p.1 := by
  intro p hp
  have hkey : p.1 ∈ (insertItem seg item st).map Prod.fst := List.mem_map_of_mem _ hp
  rw [keys_insertItem] at hkey
  have hmem : ∀ k ∈ st.map Prod.fst, P k := by
    intro k hk
    obtain ⟨q, hq, rfl⟩ := List.mem_map.mp hk
    exact hst q hq
  split_ifs at hkey with h
  · exact hmem _ hkey
  · rcases List.mem_append.mp hkey with hk | hk
    · exact hmem _ hk
    · rw [List.mem_singleton] at hk
      rw [hk]
      exact hit

/-- Every key of `dedupFold`'s output satisfies any predicate holding for the
input keys and for the links of the processed pairs. -/
theorem dedupFold_keys_pred (P : String → Prop) :
    ∀ (F : List (String × GseItem)) (st : List (String × DedupRec)),
      (∀ q ∈ F, P q.2.link) → (∀ p ∈ st, P p.1) →
      ∀ p ∈ dedupFold F st, P p.1 := by
  intro F
  induction F with
  | nil => exact fun st _ hst => hst
  | cons q F ih =>
    intro st hF hst
    exact ih (insertItem q.1 q.2 st)
      (fun q2 hq2 => hF q2 (List.mem_cons_of_mem q hq2))
      (insertItem_pred P q.1 q.2 st hst (hF q (List.mem_cons_self q F)))

/-- Every record the stage-7 loop outputs has a non-blacklisted URL: the
blacklist gate precedes the record construction. -/
theorem step7Go_black (c : Step7Collab) :
    ∀ (entries : List LinkEntry) (n : Nat) (rec : CRRecord),
      rec ∈ step7Go c n entries → c.black rec.url = false := by
  intro entries
  induction entries with
  | nil => intro n rec h; simp [step7Go] at h
  | cons e rest ih =>
    intro n rec h
    rw [step7Go] at h
    split_ifs at h with h1 h2
    · exact ih n rec h
    · exact ih n rec h
    · cases hp : c.parseArticle e.url e.html with
      | error err => rw [hp] at h; exact ih n rec h
      | ok article =>
        rw [hp] at h
        dsimp only at h
        cases ht : c.extractTitles article with
        | nil => rw [ht] at h; exact ih n rec h
        | cons t ts =>
          rw [ht] at h
          dsimp only at h
          rcases List.mem_cons.mp h with rfl | h3
          · exact Bool.eq_false_iff.mpr h2
          · exact ih (n + 1) rec h3

/-- Claim C6: no candidate record written by stage 6 has a blacklisted URL
(discovery drops blacklisted URLs before any fetch), and no record produced
by stage 7 has a blacklisted URL (the blacklist is re-checked on each
high-ratio candidate). -/
theorem blacklist_claim (c6 : Step6Collab) (c7 : Step7Collab) :
    (∀ (gse : List SegmentEntry) (cands : List Candidate) (cand : Candidate),
      step6Origin c6 gse = .ok cands → cand ∈ cands → c6.black cand.url = false) ∧
    (∀ (entries : List LinkEntry) (rec : CRRecord),
      rec ∈ step7Origin c7 entries → c7.black rec.url = false) := by
  constructor
  · intro gse cands cand hok hmem
    obtain ⟨p, hp, hproc⟩ := mapExcept_mem _ _ _ hok cand hmem
    obtain ⟨hurl, -⟩ := processRelated_ok c6 p.1 p.2 cand hproc
    rw [hurl]
    rw [dedupOrigin_eq_dedupFold] at hp
    refine dedupFold_keys_pred (fun k => c6.black k = false)
      (nonBlackPairs c6.black c6.simplify gse) [] ?_ (by simp) p hp
    intro q hq
    have h2 := (List.mem_filter.mp hq).2
    simpa using h2
  · intro entries rec hmem
    exact step7Go_black c7 entries 1 rec hmem

/-- Witness for claim C6 at concrete inputs: the candidate produced by stage
6 under `c6W` and the first record produced by stage 7 under `c7W` both have
non-blacklisted URLs. -/
theorem blacklist_claim_witness :
    c6W.black cand6W.url = false ∧
    c7W.black (step7Rec c7W 1 (entry7 "u1") ⟨"txt"⟩ "ti").url = false := by
  constructor
  · exact (blacklist_claim c6W c7W).1 gse6W [cand6W] cand6W step6Origin_c6W
      (List.mem_singleton_self _)
  · refine (blacklist_claim c6W c7W).2 [entry7 "u1"]
      (step7Rec c7W 1 (entry7 "u1") ⟨"txt"⟩ "ti") ?_
    rw [step7Origin,
      step7Go_success c7W 1 (entry7 "u1") [] ⟨"txt"⟩ "ti" []
        (by decide) (by decide) (by decide) rfl]
    exact List.mem_singleton_self _

/-! #### Claim C7: graph well-formedness in stage 8 -/

/-- A node lookup succeeds exactly when the id is among the dictionary
keys. -/
theorem lookupNode_isSome (st : List (Nat × NodeData)) (k : Nat) :
    (lookupNode st k).isSome = true ↔ k ∈ st.map Prod.fst := by
  induction st with
  | nil => simp [lookupNode]
  | cons p rest ih =>
    obtain ⟨k0, v0⟩ := p
    by_cases h : k0 = k
    · simp [lookupNode, h]
    · simp only [lookupNode, if_neg h, List.map_cons, List.mem_cons]
      rw [ih]
      constructor
      · exact fun h2 => Or.inr h2
      · rintro (rfl | h2)
        · exact absurd rfl h
        · exact h2

/-- Keys after a dict assignment: unchanged when the key exists, extended by
the key otherwise. -/
theorem keys_insertNode (st : List (Nat × NodeData)) (k : Nat) (v : NodeData) :
    (insertNode st k v).map Prod.fst =
      if k ∈ st.map Prod.fst then st.map Prod.fst else st.map Prod.fst ++ [k] := by
  induction st with
  | nil => simp [insertNode]
  | cons p rest ih =>
    obtain ⟨k0, v0⟩ := p
    by_cases h : k0 = k
    · simp [insertNode, h, List.mem_cons]
    · simp only [insertNode, if_neg h, List.map_cons, List.mem_cons]
      have hne : ¬k = k0 := fun h2 => h h2.symm
      by_cases hmem : k ∈ rest.map Prod.fst
      · rw [if_pos (Or.inr hmem), ih, if_pos hmem]
      · rw [if_neg (by rintro (h2 | h2); exact hne h2; exact hmem h2), ih, if_neg hmem]
        simp

/-- The keys of the node dictionary built by stage 8 are the ids of the seed
keys plus the ids of the folded entries. -/
theorem keys_nodesFold (entries : List RefEntry) :
    ∀ (st : List (Nat × NodeData)) (k : Nat),
      k ∈ (entries.foldl (fun st2 e => insertNode st2 e.ref_id (nodeOf e)) st).map Prod.fst ↔
        k ∈ st.map Prod.fst ∨ k ∈ entries.map RefEntry.ref_id := by
  induction entries with
  | nil => intro st k; simp
  | cons e entries ih =>
    intro st k
    rw [List.foldl_cons, ih]
    rw [keys_insertNode]
    by_cases hmem : e.ref_id ∈ st.map Prod.fst
    · rw [if_pos hmem]
      simp only [List.map_cons, List.mem_cons]
      constructor
      · rintro (h | h)
        · exact Or.inl h
        · exact Or.inr (Or.inr h)
      · rintro (h | rfl | h)
        · exact Or.inl h
        · exact Or.inl hmem
        · exact Or.inr h
    · rw [if_neg hmem]
      simp only [List.mem_append, List.mem_singleton, List.map_cons, List.mem_cons]
      tauto

/-- Claim C7: under the hypothesis that the cross-reference index returns a
set of unordered pairs of distinct ids drawn from the indexed entries, the
graph stage 8 emits contains every entry as a node keyed by its `ref_id`
(isolated nodes included), every edge joins two distinct existing nodes, and
no unordered pair appears twice in the edge list. -/
theorem step8_graph_claim (entries : List RefEntry) (links : List (Nat × Nat))
    (hids : ∀ p ∈ links, p.1 ≠ p.2 ∧ p.1 ∈ entries.map RefEntry.ref_id ∧
      p.2 ∈ entries.map RefEntry.ref_id)
    (hnodup : links.Pairwise (fun p q => ¬ sameUnordered p q)) :
    (∀ e ∈ entries, (lookupNode (step8Graph entries links).nodes e.ref_id).isSome = true) ∧
    (∀ p ∈ (step8Graph entries links).edges, p.1 ≠ p.2 ∧
      (lookupNode (step8Graph entries links).nodes p.1).isSome = true ∧
      (lookupNode (step8Graph entries links).nodes p.2).isSome = true) ∧
    (step8Graph entries links).edges.Pairwise (fun p q => ¬ sameUnordered p q) := by
  have hkeys : ∀ k : Nat,
      (lookupNode (step8Graph entries links).nodes k).isSome = true ↔
        k ∈ entries.map RefEntry.ref_id := by
    intro k
    rw [lookupNode_isSome]
    show k ∈ (entries.foldl (fun st2 e => insertNode st2 e.ref_id (nodeOf e)) []).map
      Prod.fst ↔ _
    rw [keys_nodesFold]
    simp
  refine ⟨?_, ?_, hnodup⟩
  · intro e he
    exact (hkeys e.ref_id).mpr (List.mem_map_of_mem RefEntry.ref_id he)
  · intro p hp
    obtain ⟨hne, h1, h2⟩ := hids p hp
    exact ⟨hne, (hkeys p.1).mpr h1, (hkeys p.2).mpr h2⟩

/-- Witness for claim C7: three entries and the single link (1,2); the
isolated entry 3 is still a node, and the edge (1,2) joins two distinct
existing nodes. -/
theorem step8_graph_claim_witness :
    (lookupNode (step8Graph entriesW [(1, 2)]).nodes 3).isSome = true ∧
    ((1, 2) : Nat × Nat).1 ≠ ((1, 2) : Nat × Nat).2 ∧
    (lookupNode (step8Graph entriesW [(1, 2)]).nodes 1).isSome = true ∧
    (lookupNode (step8Graph entriesW [(1, 2)]).nodes 2).isSome = true := by
  have h := step8_graph_claim entriesW [(1, 2)]
    (by intro p hp; rw [List.mem_singleton] at hp; subst hp; refine ⟨by decide, ?_, ?_⟩ <;> decide)
    (List.pairwise_singleton _ _)
  refine ⟨h.1 (refEntryW 3) (by decide), ?_⟩
  exact h.2.1 (1, 2) (List.mem_singleton_self _)
